import Mathlib

/-!
Verification development for the Library Synchronization and Recommendation
Engine of the YAM renderer (source file `src/app/electron/main/main-renderer.js`).
Strings are modelled as `List Char`; the per-character case conversion of
JavaScript `toLowerCase` / `toUpperCase` is modelled by `Char.toLower` /
`Char.toUpper`, and `String.prototype.trim` by `jsTrim` below.
-/

namespace YAM

/-- JavaScript `String.prototype.trim`: drop leading and trailing whitespace. -/
def jsTrim (s : List Char) : List Char :=
  ((s.dropWhile Char.isWhitespace).reverse.dropWhile Char.isWhitespace).reverse

/-- The keep-condition of `removeSpecials` (main-renderer.js line 384):
`lower[i] !== upper[i] || lower[i].trim() === "" || allowedChars.includes(lower[i])`. -/
def keepChar (allowedChars : List Char) (c : Char) : Bool :=
  (c.toLower != c.toUpper) || c.toLower.isWhitespace || allowedChars.contains c.toLower

/-- Function `removeSpecials` (main-renderer.js lines 376-388): walk the string keeping
exactly the characters that satisfy `keepChar`, then trim the result. -/
def removeSpecials (str : List Char) (allowedChars : List Char) : List Char :=
  jsTrim (str.filter (keepChar allowedChars))

/- Helper lemmas about `dropWhile` and `jsTrim`. -/

theorem head?_dropWhile_false {α : Type} (p : α → Bool) (l : List α) {a : α}
    (h : (l.dropWhile p).head? = some a) : p a = false := by
  have hh := List.head?_dropWhile_not p l
  rw [h] at hh
  exact hh

theorem dropWhile_of_head?_false {α : Type} (p : α → Bool) (l : List α)
    (h : ∀ a, l.head? = some a → p a = false) : l.dropWhile p = l := by
  cases l with
  | nil => rfl
  | cons x xs =>
    have hx : p x = false := h x rfl
    simp [List.dropWhile_cons, hx]

theorem dropWhile_dropWhile {α : Type} (p : α → Bool) (l : List α) :
    (l.dropWhile p).dropWhile p = l.dropWhile p := by
  apply dropWhile_of_head?_false
  intro a ha
  exact head?_dropWhile_false p l ha

/-- Right trim used by `jsTrim`. -/
def rtrim (p : α → Bool) (l : List α) : List α :=
  (l.reverse.dropWhile p).reverse

theorem rtrim_rtrim {α : Type} (p : α → Bool) (l : List α) :
    rtrim p (rtrim p l) = rtrim p l := by
  unfold rtrim
  rw [List.reverse_reverse, dropWhile_dropWhile]

theorem jsTrim_eq_rtrim (s : List Char) :
    jsTrim s = rtrim Char.isWhitespace (s.dropWhile Char.isWhitespace) := rfl

/-- If the right trim of `l` is nonempty, it has the same head as `l`. -/
theorem rtrim_head? {α : Type} (p : α → Bool) (l : List α) :
    rtrim p l = [] ∨ (rtrim p l).head? = l.head? := by
  induction l using List.reverseRecOn with
  | nil => left; rfl
  | append_singleton xs x ih =>
    by_cases hx : p x
    · have hr : rtrim p (xs ++ [x]) = rtrim p xs := by
        unfold rtrim
        simp [List.dropWhile_cons, hx]
      cases xs with
      | nil =>
        left
        rw [hr]; rfl
      | cons y ys =>
        rw [hr]
        rcases ih with h0 | hh
        · left; exact h0
        · right
          rw [hh]
          rfl
    · right
      have hr : rtrim p (xs ++ [x]) = xs ++ [x] := by
        unfold rtrim
        simp [List.dropWhile_cons, hx]
      rw [hr]

theorem jsTrim_idempotent (s : List Char) : jsTrim (jsTrim s) = jsTrim s := by
  rw [jsTrim_eq_rtrim, jsTrim_eq_rtrim]
  have h1 : (rtrim Char.isWhitespace (s.dropWhile Char.isWhitespace)).dropWhile
      Char.isWhitespace = rtrim Char.isWhitespace (s.dropWhile Char.isWhitespace) := by
    apply dropWhile_of_head?_false
    intro a ha
    rcases rtrim_head? Char.isWhitespace (s.dropWhile Char.isWhitespace) with h0 | hh
    · rw [h0] at ha; cases ha
    · rw [hh] at ha
      exact head?_dropWhile_false Char.isWhitespace s ha
  rw [h1, rtrim_rtrim]

theorem mem_dropWhile {α : Type} (p : α → Bool) (l : List α) {a : α}
    (h : a ∈ l.dropWhile p) : a ∈ l :=
  (List.dropWhile_sublist p).subset h

theorem mem_jsTrim {s : List Char} {c : Char} (h : c ∈ jsTrim s) : c ∈ s := by
  unfold jsTrim at h
  rw [List.mem_reverse] at h
  have h2 := mem_dropWhile Char.isWhitespace _ h
  rw [List.mem_reverse] at h2
  exact mem_dropWhile Char.isWhitespace s h2

theorem mem_removeSpecials {s A : List Char} {c : Char}
    (h : c ∈ removeSpecials s A) : c ∈ s ∧ keepChar A c = true := by
  have := mem_jsTrim h
  exact List.mem_filter.mp this

/-- C8: name normalization is idempotent. For every string `s` and every fixed
allow-list `A`, `removeSpecials (removeSpecials s A) A = removeSpecials s A`. -/
theorem removeSpecials_idempotent (s A : List Char) :
    removeSpecials (removeSpecials s A) A = removeSpecials s A := by
  unfold removeSpecials
  have hfilter : (jsTrim (s.filter (keepChar A))).filter (keepChar A)
      = jsTrim (s.filter (keepChar A)) := by
    apply List.filter_eq_self.mpr
    intro a ha
    exact (List.mem_filter.mp (mem_jsTrim ha)).2
  rw [hfilter, jsTrim_idempotent]

/-- C1, counterexample: the spec claims a character is kept exactly when its
lowercase and uppercase forms are identical (or it is allow-listed), so the
output should contain no cased letter outside the allow-list. The code keeps
the cased letter `a` on input `"a1"` with an empty allow-list (and drops the
digit `1`), refuting the claim. -/
theorem removeSpecials_claim_counterexample :
    ¬ (∀ c ∈ removeSpecials ("a1".toList) [], c.toLower = c.toUpper ∨ c ∈ ([] : List Char)) := by
  intro h
  have ha : 'a' ∈ removeSpecials ("a1".toList) [] := by decide
  rcases h 'a' ha with h1 | h2
  · exact absurd h1 (by decide)
  · cases h2

/-- C1, amended: `removeSpecials` keeps a character of the input exactly when
its lowercase and uppercase forms differ (a cased letter), or it is whitespace,
or its lowercase form is in the allow-list, and drops it otherwise; the result
is trimmed of leading and trailing whitespace, and every output character is a
character of the input satisfying that keep-condition. -/
theorem removeSpecials_amended (s A : List Char) :
    removeSpecials s A = jsTrim (s.filter (keepChar A)) ∧
    jsTrim (removeSpecials s A) = removeSpecials s A ∧
    (∀ c ∈ removeSpecials s A,
      c ∈ s ∧ (¬ c.toLower = c.toUpper ∨ c.toLower.isWhitespace = true ∨ c.toLower ∈ A)) := by
  refine ⟨rfl, ?_, ?_⟩
  · unfold removeSpecials
    exact jsTrim_idempotent _
  · intro c hc
    rcases mem_removeSpecials hc with ⟨hs, hk⟩
    refine ⟨hs, ?_⟩
    unfold keepChar at hk
    rcases Bool.or_eq_true .. |>.mp hk with h1 | h2
    · rcases Bool.or_eq_true .. |>.mp h1 with ha | hb
      · left
        exact bne_iff_ne.mp ha
      · right; left; exact hb
    · right; right
      exact List.elem_iff.mp h2

/-- C1 amended witness: concrete instance of `removeSpecials_amended`. -/
theorem removeSpecials_amended_witness :
    'a' ∈ ("a1".toList) ∧
    (¬ 'a'.toLower = 'a'.toUpper ∨ 'a'.toLower.isWhitespace = true ∨ 'a'.toLower ∈ ([] : List Char)) :=
  (removeSpecials_amended ("a1".toList) []).2.2 'a' (by decide)

/-! Frequency ranking: `mostFrequent` (main-renderer.js lines 459-482).
The JS object `countDict` keeps string keys in insertion order; it is modelled
as an association list in key-insertion order, and `Array.prototype.sort`
(stable since ES2019) as a stable insertion sort. -/

/-- One step of the counting loop:
`if (e in countDict) countDict[e] += 1; else countDict[e] = 1`. -/
def bump {α : Type} [DecidableEq α] (k : α) : List (α × Nat) → List (α × Nat)
  | [] => [(k, 1)]
  | p :: ps => if p.1 = k then (p.1, p.2 + 1) :: ps else p :: bump k ps

/-- The counting dictionary built by the loop over `arr`, in key-insertion order. -/
def countsOf {α : Type} [DecidableEq α] (arr : List α) : List (α × Nat) :=
  arr.foldl (fun d e => bump e d) []

/-- Stable insertion for the descending-by-count sort: the inserted element
goes before the first element whose count is not larger, so that among equal
counts the earlier element of the original list stays first. -/
def insertDesc {α : Type} (p : α × Nat) : List (α × Nat) → List (α × Nat)
  | [] => [p]
  | q :: qs => if q.2 ≤ p.2 then p :: q :: qs else q :: insertDesc p qs

/-- Stable sort descending by count, modelling
`items.sort(function (first, second) { return second[1] - first[1] })`. -/
def sortDesc {α : Type} : List (α × Nat) → List (α × Nat)
  | [] => []
  | p :: ps => insertDesc p (sortDesc ps)

/-- Function `mostFrequent(arr, n)` (main-renderer.js lines 459-482): count occurrences
into the insertion-ordered dictionary, sort the entries by count descending
with the stable sort, and return the keys of the first `min(n, items.length)`
entries. -/
def mostFrequent {α : Type} [DecidableEq α] (arr : List α) (n : Nat) : List α :=
  ((sortDesc (countsOf arr)).take (min n (countsOf arr).length)).map Prod.fst

/-- The distinct values of `l`, in order of first occurrence. -/
def distinctInOrder {α : Type} [DecidableEq α] (l : List α) : List α :=
  l.foldl (fun ks k => if k ∈ ks then ks else ks ++ [k]) []

/-- Number of occurrences of `a` in `l`. -/
def occurrences {α : Type} [DecidableEq α] (l : List α) (a : α) : Nat :=
  (l.filter (fun x => decide (x = a))).length

theorem bump_keys {α : Type} [DecidableEq α] (k : α) (d : List (α × Nat)) :
    (bump k d).map Prod.fst =
      if k ∈ d.map Prod.fst then d.map Prod.fst else d.map Prod.fst ++ [k] := by
  induction d with
  | nil => simp [bump]
  | cons p ps ih =>
    by_cases h : p.1 = k
    · subst h
      simp [bump]
    · by_cases hmem : k ∈ ps.map Prod.fst
      · have hc : k ∈ (p :: ps).map Prod.fst := by
          rw [List.map_cons]
          exact List.mem_cons.mpr (Or.inr hmem)
        rw [bump, if_neg h, List.map_cons, ih, if_pos hmem, if_pos hc, List.map_cons]
      · have hc : k ∉ (p :: ps).map Prod.fst := by
          rw [List.map_cons, List.mem_cons]
          rintro (h1 | h2)
          · exact h h1.symm
          · exact hmem h2
        rw [bump, if_neg h, List.map_cons, ih, if_neg hmem, if_neg hc, List.map_cons,
          List.cons_append]

theorem bump_not_mem {α : Type} [DecidableEq α] (k : α) (d : List (α × Nat))
    (h : k ∉ d.map Prod.fst) : bump k d = d ++ [(k, 1)] := by
  induction d with
  | nil => rfl
  | cons p ps ih =>
    have hp : p.1 ≠ k := by
      intro he
      exact h (by simp [List.map_cons, he])
    have hps : k ∉ ps.map Prod.fst := by
      intro hm
      exact h (by simp [List.map_cons, hm])
    simp [bump, hp, ih hps]

theorem mem_bump {α : Type} [DecidableEq α] (k : α) (d : List (α × Nat))
    (hnd : (d.map Prod.fst).Nodup) :
    ∀ q ∈ bump k d,
      (q ∈ d ∧ q.1 ≠ k) ∨ (q = (k, 1) ∧ k ∉ d.map Prod.fst) ∨
        (∃ p ∈ d, p.1 = k ∧ q = (k, p.2 + 1)) := by
  induction d with
  | nil =>
    intro q hq
    right; left
    simp [bump] at hq
    simp [hq]
  | cons p ps ih =>
    rw [List.map_cons] at hnd
    have hhd : p.1 ∉ ps.map Prod.fst := (List.nodup_cons.mp hnd).1
    have htl : (ps.map Prod.fst).Nodup := (List.nodup_cons.mp hnd).2
    intro q hq
    by_cases h : p.1 = k
    · rw [bump, if_pos h] at hq
      rcases List.mem_cons.mp hq with hq1 | hq2
      · right; right
        exact ⟨p, List.mem_cons_self p ps, h, by simp [hq1, h]⟩
      · left
        refine ⟨List.mem_cons_of_mem p hq2, ?_⟩
        intro he
        rw [← h] at he
        exact hhd (he ▸ List.mem_map_of_mem Prod.fst hq2)
    · rw [bump, if_neg h] at hq
      rcases List.mem_cons.mp hq with hq1 | hq2
      · left
        refine ⟨hq1 ▸ List.mem_cons_self p ps, ?_⟩
        rw [hq1]
        intro he; exact h he
      · rcases ih htl q hq2 with ⟨hm, hne⟩ | ⟨he, hnm⟩ | ⟨r, hr, hrk, he⟩
        · exact Or.inl ⟨List.mem_cons_of_mem p hm, hne⟩
        · right; left
          refine ⟨he, ?_⟩
          intro hm
          rw [List.map_cons] at hm
          rcases List.mem_cons.mp hm with h1 | h2
          · exact h h1.symm
          · exact hnm h2
        · exact Or.inr (Or.inr ⟨r, List.mem_cons_of_mem p hr, hrk, he⟩)

theorem occurrences_append_singleton {α : Type} [DecidableEq α] (l : List α) (x a : α) :
    occurrences (l ++ [x]) a = occurrences l a + (if x = a then 1 else 0) := by
  unfold occurrences
  rw [List.filter_append, List.length_append]
  by_cases h : x = a <;> simp [h]

theorem occurrences_eq_zero {α : Type} [DecidableEq α] {l : List α} {a : α} (h : a ∉ l) :
    occurrences l a = 0 := by
  unfold occurrences
  rw [List.length_eq_zero, List.filter_eq_nil_iff]
  intro b hb
  simp only [decide_eq_true_eq]
  intro hba
  exact h (hba ▸ hb)

theorem countsOf_append_singleton {α : Type} [DecidableEq α] (l : List α) (x : α) :
    countsOf (l ++ [x]) = bump x (countsOf l) := by
  unfold countsOf
  rw [List.foldl_append]
  rfl

theorem countsOf_sound {α : Type} [DecidableEq α] (arr : List α) :
    ((countsOf arr).map Prod.fst).Nodup ∧
    (∀ a, a ∈ (countsOf arr).map Prod.fst ↔ a ∈ arr) ∧
    (∀ p ∈ countsOf arr, p.2 = occurrences arr p.1) := by
  induction arr using List.reverseRecOn with
  | nil =>
    refine ⟨List.nodup_nil, ?_, ?_⟩
    · intro a; simp [countsOf]
    · intro p hp; simp [countsOf] at hp
  | append_singleton l x ih =>
    rcases ih with ⟨hnd, hmem, hcnt⟩
    rw [countsOf_append_singleton]
    by_cases hx : x ∈ (countsOf l).map Prod.fst
    · have hkeys : (bump x (countsOf l)).map Prod.fst = (countsOf l).map Prod.fst := by
        rw [bump_keys, if_pos hx]
      refine ⟨hkeys ▸ hnd, ?_, ?_⟩
      · intro a
        rw [hkeys, List.mem_append]
        constructor
        · intro ha; exact Or.inl ((hmem a).mp ha)
        · intro ha
          rcases ha with ha | ha
          · exact (hmem a).mpr ha
          · have : a = x := by simpa using ha
            exact this ▸ hx
      · intro q hq
        rcases mem_bump x (countsOf l) hnd q hq with ⟨hm, hne⟩ | ⟨_, hnm⟩ | ⟨r, hr, hrk, he⟩
        · rw [occurrences_append_singleton, if_neg (fun he => hne he.symm)]
          simpa using hcnt q hm
        · exact absurd hx hnm
        · rw [he, occurrences_append_singleton]
          have : r.2 = occurrences l r.1 := hcnt r hr
          rw [this, hrk]
          simp
    · have hb := bump_not_mem x (countsOf l) hx
      rw [hb]
      have hxl : x ∉ l := fun hc => hx ((hmem x).mpr hc)
      refine ⟨?_, ?_, ?_⟩
      · rw [List.map_append]
        apply List.Nodup.append hnd (by simp)
        intro a ha hb2
        have : a = x := by simpa using hb2
        exact hx (this ▸ ha)
      · intro a
        rw [List.map_append, List.mem_append, List.mem_append]
        constructor
        · intro ha
          rcases ha with ha | ha
          · exact Or.inl ((hmem a).mp ha)
          · right; simpa using ha
        · intro ha
          rcases ha with ha | ha
          · exact Or.inl ((hmem a).mpr ha)
          · right; simpa using ha
      · intro q hq
        rcases List.mem_append.mp hq with hq1 | hq2
        · have hne : q.1 ≠ x := by
            intro he
            exact hx (he ▸ List.mem_map_of_mem Prod.fst hq1)
          rw [occurrences_append_singleton, if_neg (fun he => hne he.symm)]
          simpa using hcnt q hq1
        · have : q = (x, 1) := by simpa using hq2
          rw [this, occurrences_append_singleton, if_pos rfl,
            occurrences_eq_zero hxl]

theorem countsOf_keys {α : Type} [DecidableEq α] (arr : List α) :
    (countsOf arr).map Prod.fst = distinctInOrder arr := by
  suffices h : ∀ (t : List α) (d : List (α × Nat)),
      (t.foldl (fun d e => bump e d) d).map Prod.fst =
        t.foldl (fun ks k => if k ∈ ks then ks else ks ++ [k]) (d.map Prod.fst) by
    exact h arr []
  intro t
  induction t with
  | nil => intro d; rfl
  | cons y ys ih =>
    intro d
    rw [List.foldl_cons, List.foldl_cons, ih, bump_keys]

theorem mem_insertDesc {α : Type} (p : α × Nat) (l : List (α × Nat)) (q : α × Nat) :
    q ∈ insertDesc p l ↔ q = p ∨ q ∈ l := by
  induction l with
  | nil => simp [insertDesc]
  | cons r rs ih =>
    by_cases h : r.2 ≤ p.2
    · simp [insertDesc, h]
    · simp [insertDesc, h, ih]
      tauto

theorem insertDesc_pairwise {α : Type} (p : α × Nat) (l : List (α × Nat))
    (h : l.Pairwise (fun a b => b.2 ≤ a.2)) :
    (insertDesc p l).Pairwise (fun a b => b.2 ≤ a.2) := by
  induction l with
  | nil => simp [insertDesc]
  | cons q qs ih =>
    rcases List.pairwise_cons.mp h with ⟨hq, hqs⟩
    by_cases hle : q.2 ≤ p.2
    · rw [insertDesc, if_pos hle]
      apply List.Pairwise.cons
      · intro x hx
        rcases List.mem_cons.mp hx with hx1 | hx2
        · exact hx1 ▸ hle
        · exact Nat.le_trans (hq x hx2) hle
      · exact h
    · rw [insertDesc, if_neg hle]
      apply List.Pairwise.cons
      · intro x hx
        rcases (mem_insertDesc p qs x).mp hx with hx1 | hx2
        · exact hx1 ▸ Nat.le_of_lt (Nat.lt_of_not_le hle)
        · exact hq x hx2
      · exact ih hqs

theorem sortDesc_pairwise {α : Type} (l : List (α × Nat)) :
    (sortDesc l).Pairwise (fun a b => b.2 ≤ a.2) := by
  induction l with
  | nil => exact List.Pairwise.nil
  | cons p ps ih => exact insertDesc_pairwise p (sortDesc ps) ih

theorem filter_insertDesc {α : Type} (p : α × Nat) (l : List (α × Nat)) (c : Nat) :
    (insertDesc p l).filter (fun q => q.2 == c) =
      if p.2 = c then p :: l.filter (fun q => q.2 == c)
      else l.filter (fun q => q.2 == c) := by
  induction l with
  | nil =>
    by_cases h : p.2 = c <;> simp [insertDesc, List.filter_cons, h]
  | cons q qs ih =>
    by_cases hle : q.2 ≤ p.2
    · rw [insertDesc, if_pos hle]
      by_cases hp : p.2 = c <;> simp [List.filter_cons, hp]
    · rw [insertDesc, if_neg hle]
      by_cases hp : p.2 = c <;> by_cases hq : q.2 = c
      · exact absurd (by rw [hp, hq] : q.2 ≤ p.2) hle
      · simp [List.filter_cons, hp, hq, ih]
      · simp [List.filter_cons, hp, hq, ih]
      · simp [List.filter_cons, hp, hq, ih]

theorem sortDesc_filter {α : Type} (l : List (α × Nat)) (c : Nat) :
    (sortDesc l).filter (fun q => q.2 == c) = l.filter (fun q => q.2 == c) := by
  induction l with
  | nil => rfl
  | cons p ps ih =>
    rw [sortDesc, filter_insertDesc]
    by_cases hp : p.2 = c <;> simp [List.filter_cons, hp, ih]

/-- C9: `mostFrequent` counts occurrences of each distinct value (keys in
first-occurrence order, values equal to the occurrence counts), sorts the
entries descending by count with a stable sort (its output is sorted, and for
each count value the entries with that count keep their original relative
order), and returns the keys of the first `min(n, distinctCount)` entries; in
particular `mostFrequent ["a","b","a","c","b","a"] 2 = ["a","b"]`. -/
theorem mostFrequent_spec :
    (∀ (α : Type) [DecidableEq α] (arr : List α) (n : Nat),
      ((countsOf arr).map Prod.fst = distinctInOrder arr) ∧
      (∀ p ∈ countsOf arr, p.2 = occurrences arr p.1) ∧
      List.Pairwise (fun p q => q.2 ≤ p.2) (sortDesc (countsOf arr)) ∧
      (∀ c : Nat, (sortDesc (countsOf arr)).filter (fun p => p.2 == c)
        = (countsOf arr).filter (fun p => p.2 == c)) ∧
      mostFrequent arr n
        = ((sortDesc (countsOf arr)).take (min n (countsOf arr).length)).map Prod.fst) ∧
    mostFrequent ["a", "b", "a", "c", "b", "a"] 2 = ["a", "b"] := by
  constructor
  · intro α inst arr n
    exact ⟨countsOf_keys arr, (countsOf_sound arr).2.2, sortDesc_pairwise _,
      sortDesc_filter _, rfl⟩
  · rfl

/-- C9 witness: concrete instance of `mostFrequent_spec`, the count stored for
the key `"a"` equals its number of occurrences. -/
theorem mostFrequent_spec_witness :
    ((("a" : String), 3).2 : Nat) = occurrences ["a", "b", "a", "c", "b", "a"] ("a", 3).1 :=
  (mostFrequent_spec.1 String ["a", "b", "a", "c", "b", "a"] 2).2.1 ("a", 3) (by decide)

/-! Data model. Store `search` with an exact filter is modelled as
`List.filter`, `insert` as append, and `write` (upsert, full replace by id)
as `writeRecord`. -/

structure GameInfo where
  id : Nat
  url : List Char
  name : List Char
  tags : List (List Char)
deriving DecidableEq

structure GameRecord where
  id : Nat
  name : List Char
  tags : List (List Char)
deriving DecidableEq

structure ThreadRecord where
  id : Nat
  url : List Char
  name : List Char
  tags : List (List Char)
  updateAvailable : Bool
  markedAsRead : Bool
deriving DecidableEq

/-- Modelled from the spec: `window.TI.convert` is an external conversion
collaborator whose code is not under `src/`; per the spec it converts catalog
metadata to a ThreadRecord with `updateAvailable` and `markedAsRead` at their
default (false). -/
def TIconvert (g : GameInfo) : ThreadRecord :=
  { id := g.id, url := g.url, name := g.name, tags := g.tags,
    updateAvailable := false, markedAsRead := false }

/-- Modelled from the spec: `window.GIE.convert` is an opaque conversion
collaborator mapping raw catalog metadata to the record shape stored in
LibraryStore. -/
def GIEconvert (g : GameInfo) : GameRecord :=
  { id := g.id, name := g.name, tags := g.tags }

/-- Store operation `write(record)`: upsert with full replacement keyed by `id`. -/
def writeRecord (db : List ThreadRecord) (r : ThreadRecord) : List ThreadRecord :=
  if db.any (fun t => t.id == r.id) then db.map (fun t => if t.id == r.id then r else t)
  else db ++ [r]

/-- Value of a nonempty digit run (`parseInt` of the match with the dot removed). -/
def natOfDigits (ds : List Char) : Nat :=
  ds.foldl (fun n c => 10 * n + (c.toNat - 48)) 0

def startsWithDigit : List Char → Bool
  | d :: _ => d.isDigit
  | [] => false

/-- Id extraction `url.match(/\.[0-9]+/)` followed by `parseInt` (main-renderer.js lines
997-1003): the first occurrence in the URL of a dot followed by digits yields
the value of the digits; otherwise there is no extractable id. -/
def extractThreadId : List Char → Option Nat
  | [] => none
  | c :: rest =>
    if c == '.' && startsWithDigit rest
    then some (natOfDigits (rest.takeWhile Char.isDigit))
    else extractThreadId rest

/-- Processing of a single watched-thread URL by the loop body of
`syncDatabaseWatchedThreads` (main-renderer.js lines 995-1027). A RemoteCatalog
failure (`getGameDataFromURL` throwing) is modelled as `catalog url = none` and
surfaces as `Except.error`; a URL without an extractable id is skipped. -/
def syncOne (catalog : List Char → Option GameInfo) (db : List ThreadRecord)
    (url : List Char) : Except (List Char) (List ThreadRecord) :=
  match extractThreadId url with
  | none => Except.ok db
  | some id =>
    match db.filter (fun t => t.id == id) with
    | [] =>
      match catalog url with
      | none => Except.error url
      | some gameInfo => Except.ok (db ++ [TIconvert gameInfo])
    | t :: _ =>
      if t.url == url then Except.ok db
      else
        match catalog url with
        | none => Except.error url
        | some gameInfo =>
          Except.ok (writeRecord db
            { TIconvert gameInfo with updateAvailable := true, markedAsRead := false })

/-- Function `syncDatabaseWatchedThreads(urlList)` (main-renderer.js lines 995-1027):
the URLs are processed strictly in order and the loop contains no per-item
catch, so a thrown catalog error aborts the whole loop; the error value also
records the store state at the moment of the throw. -/
def syncDatabaseWatchedThreads (catalog : List Char → Option GameInfo) :
    List (List Char) → List ThreadRecord →
      Except (List Char × List ThreadRecord) (List ThreadRecord)
  | [], db => Except.ok db
  | url :: rest, db =>
    match syncOne catalog db url with
    | Except.error e => Except.error (e, db)
    | Except.ok db2 => syncDatabaseWatchedThreads catalog rest db2

/-- C3: per-URL state machine of ThreadSyncEngine, for a URL with an
extractable id and a successful catalog lookup. If no record with the id
exists, the converted record (which has `updateAvailable = false`) is
inserted; if the stored record has the same url, the store is left unchanged;
if the stored url differs, the freshly fetched record with
`updateAvailable = true` and `markedAsRead = false` fully overwrites the
stored record via `write`. -/
theorem syncOne_state_machine (catalog : List Char → Option GameInfo)
    (db : List ThreadRecord) (url : List Char) (id : Nat) (g : GameInfo)
    (hid : extractThreadId url = some id) (hcat : catalog url = some g) :
    (db.filter (fun t => t.id == id) = [] →
      syncOne catalog db url = Except.ok (db ++ [TIconvert g]) ∧
      (TIconvert g).updateAvailable = false) ∧
    (∀ t rest, db.filter (fun t => t.id == id) = t :: rest →
      (t.url = url → syncOne catalog db url = Except.ok db) ∧
      (t.url ≠ url → syncOne catalog db url =
        Except.ok (writeRecord db
          { TIconvert g with updateAvailable := true, markedAsRead := false }))) := by
  constructor
  · intro hf
    refine ⟨?_, rfl⟩
    simp [syncOne, hid, hf, hcat]
  · intro t rest hf
    constructor
    · intro hurl
      simp [syncOne, hid, hf, hcat, hurl]
    · intro hne
      simp [syncOne, hid, hf, hcat, hne]

def uW : List Char := "https://site.example/threads/cool-game.12345/".toList

def gW : GameInfo :=
  { id := 12345, url := uW, name := "Cool Game".toList, tags := [] }

/-- C3 witness: concrete instance of `syncOne_state_machine` on an empty
store: the converted record is inserted and carries `updateAvailable = false`. -/
theorem syncOne_state_machine_witness :
    syncOne (fun _ => some gW) [] uW = Except.ok ([] ++ [TIconvert gW]) ∧
    (TIconvert gW).updateAvailable = false :=
  (syncOne_state_machine (fun _ => some gW) [] uW 12345 gW (by decide) rfl).1 rfl

def uA : List Char := "https://x.example/a.1/".toList

def uB : List Char := "https://x.example/b.2/".toList

/-- RemoteCatalog that fails (throws) on `uA` and succeeds on `uB`. -/
def failingCatalog : List Char → Option GameInfo := fun u =>
  if u == uA then none
  else some { id := 2, url := u, name := "b".toList, tags := [] }

/-- The record that syncing `uB` alone would insert. -/
def rB : ThreadRecord :=
  { id := 2, url := uB, name := "b".toList, tags := [],
    updateAvailable := false, markedAsRead := false }

/-- C2 (code bug): `syncDatabaseWatchedThreads` contains no per-item catch, so
the catalog failure on the first URL aborts the batch with the store still
empty; the second URL of the batch — which on its own would insert thread 2 —
is never processed. -/
theorem syncDatabaseWatchedThreads_aborts_batch :
    syncDatabaseWatchedThreads failingCatalog [uA, uB] [] = Except.error (uA, []) ∧
    syncDatabaseWatchedThreads failingCatalog [uB] [] = Except.ok [rB] := by
  exact ⟨rfl, rfl⟩

/-- Property lookup on the JS array object returned by `GameDB.search`: only
the property named `length` is defined; reading any other name gives
`undefined`, modelled as `none`. -/
def arrayProp {α : Type} (arr : List α) (prop : List Char) : Option Nat :=
  if prop == "length".toList then some arr.length else none

/-- JavaScript `x !== 0` for `x` a possibly-undefined number:
`undefined !== 0` is true. -/
def jsStrictNeqZero : Option Nat → Bool
  | none => true
  | some l => l != 0

/-- The duplicate-check tail of `onAddRemoteGame` (main-renderer.js lines
164-183): search LibraryStore by the fetched id, read the misspelled property
`lenght` of the result array, return early when it is `!== 0`, otherwise
convert and insert. -/
def onAddRemoteGame (db : List GameRecord) (info : GameInfo) : List GameRecord :=
  let entry := db.filter (fun g => g.id == info.id)
  if jsStrictNeqZero (arrayProp entry ("lenght".toList)) then db
  else db ++ [GIEconvert info]

/-- C10: because the property name `lenght` is misspelled, the read is always
`undefined`, `undefined !== 0` always holds, and the function returns before
inserting: `LibraryStore.insert` is never reached and the store is unchanged
for every store state and catalog result. -/
theorem onAddRemoteGame_never_inserts (db : List GameRecord) (info : GameInfo) :
    onAddRemoteGame db info = db := rfl

/-! Update feed: `getUpdatedThreads` (main-renderer.js lines 1034-1053). -/

/-- Lexicographic comparison of names by character code, modelling the
`{ name: 1 }` ascending sort of the ThreadStore query. -/
def charListLe : List Char → List Char → Bool
  | [], _ => true
  | _ :: _, [] => false
  | a :: as, b :: bs =>
    if a.val < b.val then true else if b.val < a.val then false else charListLe as bs

def insertByName (t : ThreadRecord) : List ThreadRecord → List ThreadRecord
  | [] => [t]
  | u :: us => if charListLe t.name u.name then t :: u :: us else u :: insertByName t us

/-- The name-ascending ordering applied by the ThreadStore query. -/
def sortByName : List ThreadRecord → List ThreadRecord
  | [] => []
  | t :: ts => insertByName t (sortByName ts)

/-- Function `getUpdatedThreads()`: query ThreadStore for records with
`updateAvailable == true` and `markedAsRead == false` ordered by name
ascending, then keep exactly those whose id has no match in LibraryStore. -/
def getUpdatedThreads (threadDB : List ThreadRecord) (gameDB : List GameRecord) :
    List ThreadRecord :=
  let threads := sortByName (threadDB.filter (fun t => t.updateAvailable && !t.markedAsRead))
  threads.foldl
    (fun result t =>
      if (gameDB.filter (fun g => g.id == t.id)).length == 0 then result ++ [t] else result)
    []

theorem foldl_push_filter {α : Type} (p : α → Bool) (l : List α) :
    ∀ acc : List α, l.foldl (fun r t => if p t then r ++ [t] else r) acc = acc ++ l.filter p := by
  induction l with
  | nil => intro acc; simp
  | cons x xs ih =>
    intro acc
    by_cases h : p x <;> simp [List.foldl_cons, h, ih, List.filter_cons]

theorem filter_length_beq_zero {α : Type} (q : α → Bool) (l : List α) :
    ((l.filter q).length == 0) = !(l.any q) := by
  cases h : l.any q
  · have hnil : l.filter q = [] := by
      rw [List.filter_eq_nil_iff]
      intro a ha
      simpa using List.any_eq_false.mp h a ha
    rw [hnil]
    rfl
  · have hex := List.any_eq_true.mp h
    rcases hex with ⟨x, hx, hqx⟩
    have hmem : x ∈ l.filter q := List.mem_filter.mpr ⟨hx, hqx⟩
    have hlen : (l.filter q).length ≠ 0 := by
      intro h0
      rw [List.length_eq_zero] at h0
      rw [h0] at hmem
      cases hmem
    simp only [Bool.not_true]
    exact beq_eq_false_iff_ne.mpr hlen

theorem mem_insertByName (t : ThreadRecord) (l : List ThreadRecord) (a : ThreadRecord) :
    a ∈ insertByName t l ↔ a = t ∨ a ∈ l := by
  induction l with
  | nil => simp [insertByName]
  | cons u us ih =>
    by_cases h : charListLe t.name u.name
    · simp [insertByName, h]
    · simp [insertByName, h, ih]
      tauto

theorem mem_sortByName (l : List ThreadRecord) (a : ThreadRecord) :
    a ∈ sortByName l ↔ a ∈ l := by
  induction l with
  | nil => simp [sortByName]
  | cons t ts ih => simp [sortByName, mem_insertByName, ih]

/-- C6: `getUpdatedThreads` returns exactly the ThreadStore records with
`updateAvailable == true` and `markedAsRead == false` whose id is not present
among LibraryStore ids, in the order produced by the name-ascending query; in
particular no returned record has an id present in LibraryStore. -/
theorem getUpdatedThreads_spec (threadDB : List ThreadRecord) (gameDB : List GameRecord) :
    getUpdatedThreads threadDB gameDB =
      (sortByName (threadDB.filter (fun t => t.updateAvailable && !t.markedAsRead))).filter
        (fun t => !(gameDB.any (fun g => g.id == t.id))) ∧
    ∀ t ∈ getUpdatedThreads threadDB gameDB,
      t.updateAvailable = true ∧ t.markedAsRead = false ∧ ∀ g ∈ gameDB, g.id ≠ t.id := by
  have heq : getUpdatedThreads threadDB gameDB =
      (sortByName (threadDB.filter (fun t => t.updateAvailable && !t.markedAsRead))).filter
        (fun t => !(gameDB.any (fun g => g.id == t.id))) := by
    unfold getUpdatedThreads
    rw [foldl_push_filter, List.nil_append]
    apply List.filter_congr
    intro t _
    exact filter_length_beq_zero _ _
  refine ⟨heq, ?_⟩
  intro t ht
  rw [heq] at ht
  rcases List.mem_filter.mp ht with ⟨hmemSort, hpred⟩
  rcases List.mem_filter.mp ((mem_sortByName _ t).mp hmemSort) with ⟨_, hflag⟩
  simp only [Bool.and_eq_true, Bool.not_eq_true'] at hflag
  refine ⟨hflag.1, hflag.2, ?_⟩
  intro g hg
  have hany : gameDB.any (fun g => g.id == t.id) = false := by
    simpa using hpred
  have := List.any_eq_false.mp hany g hg
  simpa using this

def tW : ThreadRecord :=
  { id := 5, url := "u".toList, name := "A".toList, tags := [],
    updateAvailable := true, markedAsRead := false }

/-- C6 witness: concrete instance of `getUpdatedThreads_spec`. -/
theorem getUpdatedThreads_spec_witness :
    tW.updateAvailable = true ∧ tW.markedAsRead = false ∧
      ∀ g ∈ ([] : List GameRecord), g.id ≠ tW.id :=
  (getUpdatedThreads_spec [tW] []).2 tW (by decide)

/-! Dedup resolver: `cleanGameName` (main-renderer.js lines 396-421) and
`getUnlistedGamesInArrayOfPath` (lines 845-885). -/

/-- The allow-list passed by `cleanGameName` to `removeSpecials`. -/
def versionAllowList : List Char :=
  ['-', '[', ']', '.', '0', '1', '2', '3', '4', '5', '6', '7', '8', '9']

/-- The filesystem-reserved characters matched by the regex of the source. -/
def reservedChars : List Char :=
  ['/', '\\', '?', '%', '*', ':', '|', '"', '<', '>']

/-- Remainder of the list after the first `]`, if any. -/
def afterClose : List Char → Option (List Char)
  | [] => none
  | c :: rest => if c = ']' then some rest else afterClose rest

/-- Left-to-right scan of the global non-greedy bracket removal: at a `[` that
has a later `]`, the match removes everything up to and including the first
such `]`; a `[` without a closing `]` stays. The fuel argument, set to the
length of the list, only bounds the recursion; it never runs out because
`afterClose` shortens the list. -/
def removeTagsGo : Nat → List Char → List Char
  | _, [] => []
  | 0, l => l
  | fuel + 1, c :: rest =>
    if c = '[' then
      match afterClose rest with
      | some after => removeTagsGo fuel after
      | none => c :: removeTagsGo fuel rest
    else c :: removeTagsGo fuel rest

/-- Tag removal `name.replace(/\[(.*?)\]/g, "")`. -/
def removeTags (l : List Char) : List Char := removeTagsGo l.length l

/-- Function `cleanGameName(name)`: `removeSpecials` with the version allow-list, then
strip bracketed groups, then strip reserved characters, then trim. -/
def cleanGameName (name : List Char) : List Char :=
  jsTrim ((removeTags (removeSpecials name versionAllowList)).filter
    (fun c => !(reservedChars.contains c)))

/-- Modelled from the spec: `window.API.getDirName` is not under `src/`; per
the spec it derives the directory base name of a path — the component after
the last separator, ignoring trailing separators. -/
def getDirName (p : List Char) : List Char :=
  let q := (p.reverse.dropWhile (fun c => c == '/')).reverse
  (q.reverse.takeWhile (fun c => !(c == '/'))).reverse

/-- The key before uppercasing: `cleanGameName`, then the second
reserved-character strip (replacement by a space), then trim. -/
def nameKeyBase (name : List Char) : List Char :=
  jsTrim ((cleanGameName name).map (fun c => if reservedChars.contains c then ' ' else c))

/-- The comparison key used on both sides: `nameKeyBase` uppercased. -/
def nameKey (name : List Char) : List Char := (nameKeyBase name).map Char.toUpper

/-- Function `getUnlistedGamesInArrayOfPath(paths)`: build the uppercase keys of the
installed names, then walk the candidate paths in order: a path whose key
matches an installed key is excluded (recorded in the second component, the
already-present report list), the other paths are kept in input order. -/
def getUnlistedGamesInArrayOfPath (paths : List (List Char)) (games : List GameRecord) :
    List (List Char) × List (List Char) :=
  let listedGameNames := games.map (fun g => nameKey g.name)
  paths.foldl
    (fun acc path =>
      let newGameName := nameKeyBase (getDirName path)
      if !(listedGameNames.contains (newGameName.map Char.toUpper)) then (acc.1 ++ [path], acc.2)
      else (acc.1, acc.2 ++ [newGameName]))
    ([], [])

theorem foldl_pair_fst {α γ : Type} (p : α → Bool) (f : α → γ) (l : List α) :
    ∀ acc : List α × List γ,
      (l.foldl (fun acc t => if p t then (acc.1 ++ [t], acc.2) else (acc.1, acc.2 ++ [f t]))
        acc).1 = acc.1 ++ l.filter p := by
  induction l with
  | nil => intro acc; simp
  | cons x xs ih =>
    intro acc
    by_cases h : p x <;> simp [List.foldl_cons, h, ih, List.filter_cons]

theorem getUnlisted_eq_filter (paths : List (List Char)) (games : List GameRecord) :
    (getUnlistedGamesInArrayOfPath paths games).1 =
      paths.filter
        (fun path =>
          !((games.map (fun g => nameKey g.name)).contains (nameKey (getDirName path)))) := by
  have h := foldl_pair_fst
    (fun path => !((games.map (fun g => nameKey g.name)).contains (nameKey (getDirName path))))
    (fun path => nameKeyBase (getDirName path)) paths ([], [])
  rw [List.nil_append] at h
  exact h

theorem contains_map {α β : Type} [BEq β] (f : α → β) (l : List α) (x : β) :
    (l.map f).contains x = l.any (fun a => x == f a) := by
  induction l with
  | nil => rfl
  | cons a as ih => simp [List.map_cons, List.contains_cons, List.any_cons, ih]

def titleRecord : GameRecord :=
  { id := 1, name := "Title: Part 2".toList, tags := [] }

/-- C7: a candidate path is excluded exactly when its key — `cleanGameName` of
the path base name, with the reserved characters stripped again and the
result uppercased — equals, by exact string equality, the key of some
installed record computed by the same pipeline; the non-excluded paths are
returned in input order (the result is the filter of the input); in
particular the candidate directory `Title: Part 2 [v.2]` is excluded when a
record named `Title: Part 2` is installed. -/
theorem getUnlistedGames_spec (paths : List (List Char)) (games : List GameRecord) :
    ((getUnlistedGamesInArrayOfPath paths games).1 =
      paths.filter
        (fun path =>
          !((games.map (fun g => nameKey g.name)).contains (nameKey (getDirName path)))) ∧
      ∀ p ∈ paths,
        (p ∈ (getUnlistedGamesInArrayOfPath paths games).1 ↔
          ¬ ∃ g ∈ games, nameKey (getDirName p) = nameKey g.name)) ∧
    (getUnlistedGamesInArrayOfPath ["games/Title: Part 2 [v.2]".toList] [titleRecord]).1
      = [] := by
  refine ⟨⟨getUnlisted_eq_filter paths games, ?_⟩, by decide⟩
  intro p hp
  rw [getUnlisted_eq_filter, List.mem_filter]
  constructor
  · intro h hex
    rcases hex with ⟨g, hg, hkey⟩
    have hb := h.2
    rw [contains_map] at hb
    have hfalse : games.any (fun a => nameKey (getDirName p) == nameKey a.name) = false := by
      cases hh : games.any (fun a => nameKey (getDirName p) == nameKey a.name)
      · rfl
      · rw [hh] at hb; cases hb
    have := List.any_eq_false.mp hfalse g hg
    exact this (by simp [hkey])
  · intro hnex
    refine ⟨hp, ?_⟩
    rw [contains_map]
    have hfalse : games.any (fun a => nameKey (getDirName p) == nameKey a.name) = false := by
      rw [← Bool.not_eq_true, List.any_eq_true]
      rintro ⟨g, hg, hbeq⟩
      exact hnex ⟨g, hg, by simpa using hbeq⟩
    rw [hfalse]
    rfl

/-- C7 witness: concrete instance of `getUnlistedGames_spec` with no installed
records: the single candidate path is kept. -/
theorem getUnlistedGames_spec_witness :
    "d/g".toList ∈ (getUnlistedGamesInArrayOfPath ["d/g".toList] []).1 ↔
      ¬ ∃ g ∈ ([] : List GameRecord), nameKey (getDirName ("d/g".toList)) = nameKey g.name :=
  (getUnlistedGames_spec ["d/g".toList] []).1.2 ("d/g".toList) (by decide)

/-! Recommendation engine: `recommendGames` (main-renderer.js lines 1113-1154). -/

/-- The inner `for (const game of games)` filling loop: a catalog result is
appended when its id is not among the installed ids, no accumulated entry has
the same id, and the accumulator holds fewer than `MAX_GAMES = 10` entries. -/
def recommendStep (installedIDs : List Nat) (valid : List GameInfo)
    (games : List GameInfo) : List GameInfo :=
  games.foldl
    (fun acc g =>
      if !(installedIDs.contains g.id) && (acc.find? (fun v => v.id == g.id)).isNone &&
          decide (acc.length < 10)
      then acc ++ [g] else acc)
    valid

/-- The do-while query loop: each iteration queries the catalog with the
current tag list, fills the accumulator, pops the last tag, and repeats while
fewer than ten games are accumulated and tags remain. The fuel argument, set
to `tags.length + 1` by `recommendLoop`, only bounds the recursion; it never
runs out because each iteration shortens the tag list by one. The second
component counts the executed iterations. -/
def recommendLoopGo (latest : List (List Char) → List GameInfo) (installedIDs : List Nat) :
    Nat → List (List Char) → List GameInfo → List GameInfo × Nat
  | 0, _, valid => (valid, 0)
  | fuel + 1, tags, valid =>
    let valid2 := recommendStep installedIDs valid (latest tags)
    let tags2 := tags.dropLast
    if valid2.length < 10 ∧ tags2 ≠ [] then
      let r := recommendLoopGo latest installedIDs fuel tags2 valid2
      (r.1, r.2 + 1)
    else (valid2, 1)

def recommendLoop (latest : List (List Char) → List GameInfo) (installedIDs : List Nat)
    (tags : List (List Char)) (valid : List GameInfo) : List GameInfo × Nat :=
  recommendLoopGo latest installedIDs (tags.length + 1) tags valid

/-- Function `recommendGames()` together with its loop iteration count: the five most
frequent tags of installed games and of watched threads, their union re-ranked
and capped at `MAX_TAGS = 5`, the installed ids read once at the start, then
the query loop starting from an empty accumulator. -/
def recommendGamesAux (gameDB : List GameRecord) (threadDB : List ThreadRecord)
    (latest : List (List Char) → List GameInfo) : List GameInfo × Nat :=
  let gameTags := mostFrequent (gameDB.foldl (fun acc g => acc ++ g.tags) []) 5
  let threadTags := mostFrequent (threadDB.foldl (fun acc t => acc ++ t.tags) []) 5
  let tags := mostFrequent (gameTags ++ threadTags) 5
  let installedGameIDs := gameDB.map (fun g => g.id)
  recommendLoop latest installedGameIDs tags []

def recommendGames (gameDB : List GameRecord) (threadDB : List ThreadRecord)
    (latest : List (List Char) → List GameInfo) : List GameInfo :=
  (recommendGamesAux gameDB threadDB latest).1

/-- Invariant of the accumulator of the recommendation loop. -/
def recInvariant (installedIDs : List Nat) (l : List GameInfo) : Prop :=
  l.length ≤ 10 ∧ (∀ g ∈ l, g.id ∉ installedIDs) ∧ l.Pairwise (fun a b => a.id ≠ b.id)

theorem recommendStep_invariant (installedIDs : List Nat) (games : List GameInfo) :
    ∀ valid : List GameInfo, recInvariant installedIDs valid →
      recInvariant installedIDs (recommendStep installedIDs valid games) := by
  induction games with
  | nil => intro valid h; exact h
  | cons g gs ih =>
    intro valid h
    rw [recommendStep, List.foldl_cons]
    by_cases hc : (!(installedIDs.contains g.id) &&
        (valid.find? (fun v => v.id == g.id)).isNone && decide (valid.length < 10)) = true
    · rw [if_pos hc]
      apply ih
      rcases Bool.and_eq_true_iff.mp hc with ⟨hc12, hlen⟩
      rcases Bool.and_eq_true_iff.mp hc12 with ⟨hinst, hfind⟩
      have hlen10 : valid.length < 10 := of_decide_eq_true hlen
      have hnotinst : g.id ∉ installedIDs := by
        intro hmem
        have := List.elem_eq_true_of_mem hmem
        rw [List.contains] at hinst
        rw [this] at hinst
        cases hinst
      have hfresh : ∀ v ∈ valid, v.id ≠ g.id := by
        intro v hv
        have hnone : valid.find? (fun v => v.id == g.id) = none :=
          Option.isNone_iff_eq_none.mp hfind
        have := List.find?_eq_none.mp hnone v hv
        simpa using this
      refine ⟨?_, ?_, ?_⟩
      · rw [List.length_append, List.length_singleton]
        omega
      · intro x hx
        rcases List.mem_append.mp hx with hx1 | hx2
        · exact h.2.1 x hx1
        · have : x = g := by simpa using hx2
          exact this ▸ hnotinst
      · rw [List.pairwise_append]
        refine ⟨h.2.2, List.pairwise_singleton _ _, ?_⟩
        intro a ha b hb
        have : b = g := by simpa using hb
        exact this ▸ hfresh a ha
    · rw [if_neg hc]
      exact ih valid h

theorem recommendLoopGo_invariant (latest : List (List Char) → List GameInfo)
    (installedIDs : List Nat) :
    ∀ (fuel : Nat) (tags : List (List Char)) (valid : List GameInfo),
      recInvariant installedIDs valid →
        recInvariant installedIDs (recommendLoopGo latest installedIDs fuel tags valid).1 := by
  intro fuel
  induction fuel with
  | zero => intro tags valid h; exact h
  | succ n ih =>
    intro tags valid h
    rw [recommendLoopGo]
    by_cases hc : (recommendStep installedIDs valid (latest tags)).length < 10 ∧
        tags.dropLast ≠ []
    · rw [if_pos hc]
      exact ih tags.dropLast (recommendStep installedIDs valid (latest tags))
        (recommendStep_invariant installedIDs (latest tags) valid h)
    · rw [if_neg hc]
      exact recommendStep_invariant installedIDs (latest tags) valid h

theorem recommendLoopGo_steps (latest : List (List Char) → List GameInfo)
    (installedIDs : List Nat) :
    ∀ (fuel : Nat) (tags : List (List Char)) (valid : List GameInfo),
      (recommendLoopGo latest installedIDs fuel tags valid).2 ≤ max tags.length 1 := by
  intro fuel
  induction fuel with
  | zero =>
    intro tags valid
    exact Nat.le_trans (Nat.zero_le 1) (Nat.le_max_right _ _)
  | succ n ih =>
    intro tags valid
    rw [recommendLoopGo]
    by_cases hc : (recommendStep installedIDs valid (latest tags)).length < 10 ∧
        tags.dropLast ≠ []
    · rw [if_pos hc]
      have hne : tags.dropLast ≠ [] := hc.2
      have hlen : tags.dropLast.length = tags.length - 1 := List.length_dropLast tags
      have hpos : 0 < tags.dropLast.length := List.length_pos.mpr hne
      have hstep := ih tags.dropLast (recommendStep installedIDs valid (latest tags))
      have hmax : max tags.dropLast.length 1 = tags.dropLast.length := Nat.max_eq_left hpos
      rw [hmax] at hstep
      have : (recommendLoopGo latest installedIDs n tags.dropLast
          (recommendStep installedIDs valid (latest tags))).2 + 1 ≤ tags.length := by omega
      exact Nat.le_trans this (Nat.le_max_left _ _)
    · rw [if_neg hc]
      exact Nat.le_max_right _ _

theorem mostFrequent_length_le {α : Type} [DecidableEq α] (arr : List α) (n : Nat) :
    (mostFrequent arr n).length ≤ n := by
  unfold mostFrequent
  rw [List.length_map, List.length_take]
  exact Nat.le_trans (Nat.min_le_left _ _) (Nat.min_le_left _ _)

/-- C4: the query loop of the recommendation engine terminates for every
store and catalog state: the executed iteration count of the loop is at most
`max tags.length 1` (the tag list loses one element per iteration), the
initial tag list has at most `MAX_TAGS = 5` entries, and consequently a full
`recommendGames` run performs at most six query-loop iterations. -/
theorem recommendGames_iteration_bound :
    (∀ (latest : List (List Char) → List GameInfo) (installedIDs : List Nat)
        (tags : List (List Char)) (valid : List GameInfo),
      (recommendLoop latest installedIDs tags valid).2 ≤ max tags.length 1) ∧
    (∀ (gameDB : List GameRecord) (threadDB : List ThreadRecord)
        (latest : List (List Char) → List GameInfo),
      (mostFrequent ((mostFrequent (gameDB.foldl (fun acc g => acc ++ g.tags) []) 5) ++
        (mostFrequent (threadDB.foldl (fun acc t => acc ++ t.tags) []) 5)) 5).length ≤ 5 ∧
      (recommendGamesAux gameDB threadDB latest).2 ≤ 6) := by
  constructor
  · intro latest installedIDs tags valid
    exact recommendLoopGo_steps latest installedIDs (tags.length + 1) tags valid
  · intro gameDB threadDB latest
    refine ⟨mostFrequent_length_le _ _, ?_⟩
    have hsteps := recommendLoopGo_steps latest (gameDB.map (fun g => g.id))
      ((mostFrequent ((mostFrequent (gameDB.foldl (fun acc g => acc ++ g.tags) []) 5) ++
        (mostFrequent (threadDB.foldl (fun acc t => acc ++ t.tags) []) 5)) 5).length + 1)
      (mostFrequent ((mostFrequent (gameDB.foldl (fun acc g => acc ++ g.tags) []) 5) ++
        (mostFrequent (threadDB.foldl (fun acc t => acc ++ t.tags) []) 5)) 5) []
    have hlen : (mostFrequent ((mostFrequent (gameDB.foldl (fun acc g => acc ++ g.tags) []) 5) ++
        (mostFrequent (threadDB.foldl (fun acc t => acc ++ t.tags) []) 5)) 5).length ≤ 5 :=
      mostFrequent_length_le _ _
    have hmax : max (mostFrequent ((mostFrequent (gameDB.foldl (fun acc g => acc ++ g.tags) []) 5) ++
        (mostFrequent (threadDB.foldl (fun acc t => acc ++ t.tags) []) 5)) 5).length 1 ≤ 6 :=
      Nat.max_le.mpr ⟨by omega, by omega⟩
    exact Nat.le_trans hsteps hmax

/-- C5: for every store and catalog state the recommendation list has at most
`MAX_GAMES = 10` entries, contains no entry whose id is among the installed
ids read from LibraryStore at the start of the call, and contains no two
entries with the same id. -/
theorem recommendGames_output_bounds (gameDB : List GameRecord)
    (threadDB : List ThreadRecord) (latest : List (List Char) → List GameInfo) :
    (recommendGames gameDB threadDB latest).length ≤ 10 ∧
    (∀ g ∈ recommendGames gameDB threadDB latest, g.id ∉ gameDB.map (fun x => x.id)) ∧
    (recommendGames gameDB threadDB latest).Pairwise (fun a b => a.id ≠ b.id) := by
  have hstart : recInvariant (gameDB.map (fun g => g.id)) [] := by
    refine ⟨by simp, ?_, List.Pairwise.nil⟩
    intro g hg
    cases hg
  have h := recommendLoopGo_invariant latest (gameDB.map (fun g => g.id))
    ((mostFrequent ((mostFrequent (gameDB.foldl (fun acc g => acc ++ g.tags) []) 5) ++
      (mostFrequent (threadDB.foldl (fun acc t => acc ++ t.tags) []) 5)) 5).length + 1)
    (mostFrequent ((mostFrequent (gameDB.foldl (fun acc g => acc ++ g.tags) []) 5) ++
      (mostFrequent (threadDB.foldl (fun acc t => acc ++ t.tags) []) 5)) 5) [] hstart
  exact h

def gRec : GameInfo := { id := 7, url := [], name := [], tags := [] }

/-- C5 witness: concrete instance of `recommendGames_output_bounds`; the
recommended game is not among the (empty) installed ids. -/
theorem recommendGames_output_bounds_witness :
    gRec.id ∉ ([] : List GameRecord).map (fun x => x.id) :=
  (recommendGames_output_bounds [] [] (fun _ => [gRec])).2.1 gRec (by decide)

end YAM
